import Mathlib

/-!
Verification development for the upstream acquisition and repository
synchronization core of the moss/boulder toolchain.

The first half embeds `crates/boulder/src/upstream.rs` (hash parsing, the
content-addressed plain-file fetch cache, and the git synchronizer's
subprocess orchestration).  The second half embeds
`moss/src/repository/manager.rs` (repository manager construction, removal,
and the index refresh pipeline).

Filesystem state is modelled explicitly as an association list from paths
(lists of components) to byte contents; network and subprocess interaction is
modelled by explicit environments (chunk streams, per-call subprocess
outcomes) threaded through the functions, mirroring the source control flow.
-/

namespace Boulder

/-- A filesystem path, as a list of components. -/
abbrev FsPath := List String

/-- A byte string (file contents, network chunks). -/
abbrev Bytes := List Nat

/-- Explicit filesystem state: files present, keyed by path. -/
structure FS where
  files : List (FsPath × Bytes)
deriving DecidableEq

/-- `path.exists()` on the modelled filesystem. -/
def FS.existsPath (fs : FS) (p : FsPath) : Bool :=
  fs.files.any fun e => decide (e.1 = p)

/-- Creating/overwriting a file at `p` with contents `c`. -/
def FS.write (fs : FS) (p : FsPath) (c : Bytes) : FS :=
  ⟨(p, c) :: fs.files.filter fun e => decide (e.1 ≠ p)⟩

/-- `fs::remove_file`: removing the file at `p`. -/
def FS.remove (fs : FS) (p : FsPath) : FS :=
  ⟨fs.files.filter fun e => decide (e.1 ≠ p)⟩

/-- A URL, reduced to the observations `upstream.rs` makes of it:
`uri.path()` and `uri.as_str()`. -/
structure Url where
  path : String
  full : String
deriving DecidableEq

/-- The build cache handle; `upstream.rs` only uses the host side of its
upstreams directory. -/
structure Cache where
  upstreamsHost : FsPath
deriving DecidableEq

/-- `ParseHashError` from `upstream.rs`. -/
inductive ParseHashError where
  | TooShort (s : String)
deriving DecidableEq

/-- `Hash`: a newtype over the declared hash string. -/
structure Hash where
  val : String
deriving DecidableEq

/-- `Hash::from_str`: reject strings shorter than 5, otherwise accept the
string unchanged (no character-set validation). -/
def Hash.from_str (s : String) : Except ParseHashError Hash :=
  if s.length < 5 then
    .error (.TooShort s)
  else
    .ok ⟨s⟩

/-- The `Error` enum of `upstream.rs` (fields reduced to those observed). -/
inductive Error where
  | GitFailed (uri : Url)
  | ParseHash (e : ParseHashError)
  | HashMismatch (name expected got : String)
  | Request
  | Io
deriving DecidableEq

/-- The `Installed` enum: result of a successful fetch. -/
inductive Installed where
  | Plain (name : String) (path : FsPath) (was_cached : Bool)
  | Git (name : String) (path : FsPath) (was_cached : Bool)
deriving DecidableEq

/-- `Installed::was_cached`. -/
def Installed.was_cached : Installed → Bool
  | .Plain _ _ w => w
  | .Git _ _ w => w

/-- The `Plain` upstream variant. -/
structure Plain where
  uri : Url
  hash : Hash
  rename : Option String
  strip_dirs : Nat
  unpack : Bool
  unpack_dir : FsPath
deriving DecidableEq

/-- `Plain::name`: the rename if any, else the last `/`-separated segment of
the URI path. -/
def Plain.name (p : Plain) : String :=
  match p.rename with
  | some n => n
  | none => ((p.uri.path.splitOn "/").getLast?).getD ""

/-- `Plain::path`: the cache path, `fetched/<hash[..5]>/<hash[len-5..]>/<hash>`
under the cache's upstream host directory.  (The source also ensures the
parent directory exists, ignoring failures; a pure side effect not modelled.) -/
def Plain.path (p : Plain) (cache : Cache) : FsPath :=
  let hash := p.hash.val
  cache.upstreamsHost ++
    ["fetched", hash.take 5, hash.drop (hash.length - 5), hash]

/-- One received network chunk: either bytes or a mid-stream transport error. -/
abbrev Chunk := Except Unit Bytes

/-- The download loop of `Plain::fetch`: concatenates chunk bytes until the
stream ends (returning the full content) or a chunk fails (returning the
bytes written so far alongside the error). -/
def streamContent : List Chunk → Except Bytes Bytes
  | [] => .ok []
  | .error _ :: _ => .error []
  | .ok b :: rest =>
    match streamContent rest with
    | .ok c => .ok (b ++ c)
    | .error partialBytes => .error (b ++ partialBytes)

/-- Outcome of `Plain::fetch`: the returned value, the filesystem afterward,
and counters for network requests issued and digests finalized (observations
used to state cache-hit behaviour). -/
structure PlainFetchResult where
  result : Except Error Installed
  fs : FS
  networkRequests : Nat
  digestsComputed : Nat

/-- `Plain::fetch`.  `digest` models `hex::encode ∘ Sha256` applied to the
full downloaded content; `request` models `request::get` (either a transport
failure or the stream of chunks).  Mirrors the source: return immediately on
an existing cache path; otherwise stream to the cache path while hashing;
on digest mismatch remove the file and fail with `HashMismatch`. -/
def Plain.fetch (p : Plain) (cache : Cache) (fs : FS)
    (digest : Bytes → String) (request : Except Unit (List Chunk)) :
    PlainFetchResult :=
  let name := p.name
  let path := p.path cache
  if fs.existsPath path then
    ⟨.ok (.Plain name path true), fs, 0, 0⟩
  else
    match request with
    | .error _ => ⟨.error .Request, fs, 1, 0⟩
    | .ok chunks =>
      match streamContent chunks with
      | .error partialBytes =>
        ⟨.error .Request, fs.write path partialBytes, 1, 0⟩
      | .ok content =>
        let fs1 := fs.write path content
        let hash := digest content
        if hash ≠ p.hash.val then
          ⟨.error (.HashMismatch name p.hash.val hash), fs1.remove path, 1, 1⟩
        else
          ⟨.ok (.Plain name path false), fs1, 1, 1⟩

/-- The `Git` upstream variant. -/
structure Git where
  uri : Url
  ref_id : String
  clone_dir : Option FsPath
  staging : Bool
deriving DecidableEq

/-- `Git::name`: the last `/`-separated segment of the URI path. -/
def Git.name (g : Git) : String :=
  ((g.uri.path.splitOn "/").getLast?).getD ""

/-- The URI path with any leading `/` removed (`strip_prefix('/')` in the
source), kept as a single relative component. -/
def Git.relative_path (g : Git) : String :=
  if g.uri.path.startsWith "/" then g.uri.path.drop 1 else g.uri.path

/-- `Git::final_path`: `git/<uri-path>` under the cache's upstream host
directory (parent creation side effect not modelled). -/
def Git.final_path (g : Git) (cache : Cache) : FsPath :=
  cache.upstreamsHost ++ ["git", g.relative_path]

/-- `Git::staging_path`: `staging/git/<uri-path>` under the cache's upstream
host directory. -/
def Git.staging_path (g : Git) (cache : Cache) : FsPath :=
  cache.upstreamsHost ++ ["staging", "git", g.relative_path]

/-- Environment for a git fetch: whether the final path already exists on
disk, and for the `n`-th spawned git subprocess its exit status
(`true` = success) and captured stderr. -/
structure GitEnv where
  finalExists : Bool
  proc : Nat → Bool × String

/-- Observable trace of a git fetch: number of subprocesses spawned so far,
stderr text surfaced to the operator, and the argument vectors of the
spawned subprocesses in order. -/
structure Trace where
  count : Nat
  printed : List String
  calls : List (List String)
deriving DecidableEq

/-- `Git::run`: spawn `git` with `args` (the working-directory argument is
not observed by any property and is omitted).  On non-zero exit status the
captured stderr is surfaced and the call fails with `GitFailed` carrying the
source URI. -/
def Git.run (g : Git) (env : GitEnv) (args : List String) (tr : Trace) :
    Except Error Unit × Trace :=
  let out := env.proc tr.count
  let tr1 : Trace := ⟨tr.count + 1, tr.printed, tr.calls ++ [args]⟩
  if out.1 then
    (.ok (), tr1)
  else
    (.error (.GitFailed g.uri), ⟨tr1.count, tr1.printed ++ [out.2], tr1.calls⟩)

/-- `Git::ref_exists`: false without a subprocess when the path does not
exist; otherwise run `git fetch` (propagating its failure), then probe the
ref with `git cat-file -e`, whose result is *inspected*, not propagated:
a failing probe yields `ok false`. -/
def Git.ref_exists (g : Git) (env : GitEnv) (tr : Trace) :
    Except Error Bool × Trace :=
  if !env.finalExists then
    (.ok false, tr)
  else
    match g.run env ["fetch"] tr with
    | (.error e, tr1) => (.error e, tr1)
    | (.ok _, tr1) =>
      match g.run env ["cat-file", "-e", g.ref_id] tr1 with
      | (.ok _, tr2) => (.ok true, tr2)
      | (.error _, tr2) => (.ok false, tr2)

/-- `Git::reset_to_ref`: `git reset --hard <ref>` then the recursive
submodule update; either failure propagates. -/
def Git.reset_to_ref (g : Git) (env : GitEnv) (tr : Trace) :
    Except Error Unit × Trace :=
  match g.run env ["reset", "--hard", g.ref_id] tr with
  | (.error e, tr1) => (.error e, tr1)
  | (.ok _, tr1) =>
    g.run env
      ["submodule", "update", "--init", "--recursive", "--depth", "1",
       "--jobs", "4"] tr1

/-- `Git::fetch`: on a locally resolvable ref, reset and return
`was_cached = true`; otherwise clone (via the staging mirror when staging is
set; the stale-directory removals are ignored-error filesystem effects not
modelled), reset, and return `was_cached = false`. -/
def Git.fetch (g : Git) (cache : Cache) (env : GitEnv) (tr : Trace) :
    Except Error Installed × Trace :=
  let clone_path := if g.staging then g.staging_path cache else g.final_path cache
  let final_path := g.final_path cache
  match g.ref_exists env tr with
  | (.error e, tr1) => (.error e, tr1)
  | (.ok true, tr1) =>
    match g.reset_to_ref env tr1 with
    | (.error e, tr2) => (.error e, tr2)
    | (.ok _, tr2) => (.ok (.Git g.name final_path true), tr2)
  | (.ok false, tr1) =>
    let cloneArgs :=
      ["clone"] ++ (if g.staging then ["--mirror"] else []) ++
        ["--", g.uri.full, String.intercalate "/" clone_path]
    match g.run env cloneArgs tr1 with
    | (.error e, tr2) => (.error e, tr2)
    | (.ok _, tr2) =>
      let afterStage :=
        if g.staging then
          g.run env
            ["clone", "--", String.intercalate "/" clone_path,
             String.intercalate "/" final_path] tr2
        else
          (.ok (), tr2)
      match afterStage with
      | (.error e, tr3) => (.error e, tr3)
      | (.ok _, tr3) =>
        match g.reset_to_ref env tr3 with
        | (.error e, tr4) => (.error e, tr4)
        | (.ok _, tr4) => (.ok (.Git g.name final_path false), tr4)

/-- A concrete `Plain` upstream used to instantiate the theorems below. -/
def samplePlain : Plain :=
  { uri := ⟨"/src/foo-1.0.tar.gz", "https://example.org/src/foo-1.0.tar.gz"⟩
    hash := ⟨"abcdef1234"⟩
    rename := none
    strip_dirs := 0
    unpack := true
    unpack_dir := [] }

/-- A second `Plain` upstream with the same hash but different URI and
options. -/
def samplePlain2 : Plain :=
  { uri := ⟨"/mirror/foo.tgz", "https://mirror.net/mirror/foo.tgz"⟩
    hash := ⟨"abcdef1234"⟩
    rename := some "foo.tgz"
    strip_dirs := 1
    unpack := false
    unpack_dir := ["x"] }

/-- A concrete cache root. -/
def sampleCache : Cache := ⟨["var", "cache", "upstreams"]⟩

/-- A concrete `Git` upstream. -/
def sampleGit : Git :=
  ⟨⟨"/org/repo.git", "https://example.org/org/repo.git"⟩, "deadbeef", none, false⟩

/-- A git environment where the final path exists and precisely the second
subprocess (the `cat-file -e` ref probe) fails. -/
def sampleGitEnv : GitEnv :=
  ⟨true, fun n => if n = 1 then (false, "fatal: bad object") else (true, "")⟩

/-- A git environment where the final path exists and the very first
subprocess (`git fetch`, not the probe) fails. -/
def sampleGitEnv2 : GitEnv :=
  ⟨true, fun n => if n = 0 then (false, "fatal: could not read") else (true, "")⟩

end Boulder

namespace Moss

/-- Metadata field tags (`stone::payload::meta::Tag`), reduced to those the
manager observes. -/
inductive MetaTag where
  | PackageHash
  | Name
deriving DecidableEq

/-- Modelled from the spec: the index decode collaborator (`package::Meta`
together with `Meta::from_stone_payload`, outside the embedded sources)
yields, per metadata payload, a package metadata record with an *optional*
package-hash field; the remaining fields are opaque to the manager and are
collapsed into `rest`. -/
structure Meta where
  hash : Option String
  rest : String
deriving DecidableEq

/-- Modelled from the spec: one decoded payload record from the index file
(`stone::read::PayloadKind`) — a metadata payload carrying its decoded
record, or any of the other payload kinds, which the manager filters out. -/
inductive PayloadKind where
  | Meta (meta : Meta)
  | Other
deriving DecidableEq

/-- The manager's `Error` enum (payload-free where fields are unobserved). -/
inductive Error where
  | MissingMetaField (tag : MetaTag)
  | CreateDir
  | RemoveDir
  | FetchIndex
  | ReadStone
  | Database
  | SaveConfig
  | UnknownRepo (id : String)
deriving DecidableEq

/-- A package identifier: derived from the package-hash string
(`package::Id::from(hash)`). -/
abbrev PackageId := String

/-- Contents of one repository's metadata store, as the list of inserted
(identifier, record) rows. -/
abbrev MetaDb := List (PackageId × Meta)

/-- `environment::DB_BATCH_SIZE`: the manager's own comment fixes the batch
size at 1k (13 binds x 1k batch = 17k of sqlite's 32k bind ceiling). -/
def DB_BATCH_SIZE : Nat := 1000

/-- `Iterator::chunks`/`StreamExt::chunks`: split a list into consecutive
chunks of `n` elements, the last possibly shorter; no empty chunks. -/
def chunksOf (n : Nat) (l : List α) : List (List α) :=
  if l.isEmpty then []
  else if n = 0 then [l]
  else l.take n :: chunksOf n (l.drop n)
termination_by l.length
decreasing_by
  simp only [List.isEmpty_eq_true] at *
  cases l with
  | nil => simp_all
  | cons a t =>
    simp only [List.length_drop, List.length_cons]
    omega

/-- Deriving a package row from a decoded record: the identifier comes from
the required hash field; a record without it raises
`MissingMetaField PackageHash` (`meta.hash.clone().ok_or(...)` in the
source). -/
def packageRow (m : Meta) : Except Error (PackageId × Meta) :=
  match m.hash with
  | some hash => .ok (hash, m)
  | none => .error (.MissingMetaField .PackageHash)

/-- The metadata records among a chunk of payloads (`filter_map` over
`PayloadKind::Meta`). -/
def metasOf (chunk : List PayloadKind) : List Meta :=
  chunk.filterMap fun p =>
    match p with
    | .Meta m => some m
    | .Other => none

/-- Turning one chunk of payloads into the batch passed to `batch_add`:
filter to metadata payloads, then derive each row, failing the whole chunk
on the first record without a hash. -/
def chunkBatch (chunk : List PayloadKind) : Except Error (List (PackageId × Meta)) :=
  (metasOf chunk).mapM packageRow

/-- Transposing one chunk of stream items
(`results.into_iter().collect::<Result<Vec<_>, _>>()`): the first read error
fails the chunk with `ReadStone`. -/
def collectChunk (chunk : List (Except Unit PayloadKind)) :
    Except Error (List PayloadKind) :=
  chunk.mapM fun r =>
    match r with
    | .ok p => .ok p
    | .error _ => .error Error.ReadStone

/-- The `try_for_each` loop over batches: for each chunk, transpose read
errors, build the batch, and pass it to `batch_add` (whose outcome for the
`i`-th call is `batchOk i`); the first failure aborts the remaining stream.
Returns the outcome, the store contents afterward, and the list of batches
passed to `batch_add`. -/
def runBatches (batchOk : Nat → Bool) :
    List (List (Except Unit PayloadKind)) → Nat → MetaDb →
    Except Error Unit × MetaDb × List (List (PackageId × Meta))
  | [], _, db => (.ok (), db, [])
  | chunk :: rest, i, db =>
    match collectChunk chunk with
    | .error e => (.error e, db, [])
    | .ok payloads =>
      match chunkBatch payloads with
      | .error e => (.error e, db, [])
      | .ok batch =>
        if batchOk i then
          let (r, db1, batches) := runBatches batchOk rest (i + 1) (db ++ batch)
          (r, db1, batch :: batches)
        else
          (.error .Database, db, [batch])

/-- Environment for one index refresh: outcomes of the fallible collaborator
steps in source order — directory creation, `repository::fetch_index`,
`stone::stream_payloads` (opening the downloaded file), the decoded payload
stream itself, and each `batch_add` call. -/
structure RefreshEnv where
  createDirOk : Bool
  fetchIndex : Except Unit Unit
  streamOpen : Except Unit Unit
  payloads : List (Except Unit PayloadKind)
  batchOk : Nat → Bool

/-- `refresh_index`: create the repo directory, download the index
(overwrite-in-place; store untouched on failure), wipe the store, open the
payload stream, and insert the decoded records in `DB_BATCH_SIZE` chunks.
Returns the outcome, the store contents afterward, and the batches passed to
the store. -/
def refresh_index (db : MetaDb) (env : RefreshEnv) :
    Except Error Unit × MetaDb × List (List (PackageId × Meta)) :=
  if !env.createDirOk then
    (.error .CreateDir, db, [])
  else
    match env.fetchIndex with
    | .error _ => (.error .FetchIndex, db, [])
    | .ok _ =>
      -- Wipe db since we're refreshing from a new index file
      match env.streamOpen with
      | .error _ => (.error .ReadStone, [], [])
      | .ok _ => runBatches env.batchOk (chunksOf DB_BATCH_SIZE env.payloads) 0 []

/-- A configured repository (identifier stored separately as the key). -/
structure Repository where
  description : String
  uri : String
  priority : Int
deriving DecidableEq

/-- An opened metadata-store handle, reduced to an opaque token. -/
abbrev DbHandle := Nat

/-- `repository::Active`: a repository paired with its open store handle. -/
structure Active where
  id : String
  repository : Repository
  db : DbHandle
deriving DecidableEq

/-- The manager's in-memory state: its map from identifiers to active
repositories (as an association list). -/
structure Manager where
  repositories : List (String × Active)
deriving DecidableEq

/-- Modelled from the spec: the config persistence collaborator's load step
(`config::load`, outside the embedded sources) either produces the merged
repository map or fails — by absence, or by an unreadable or malformed
config file. -/
inductive ConfigLoadError where
  | NotFound
  | Unreadable
  | Malformed
deriving DecidableEq

/-- `Manager::new`: load the persisted configs, defaulting *any* load
failure to the empty map (`unwrap_or_default`), then open every repository's
metadata store (`open_meta_db`, whose outcome per identifier is given by
`openDb`), failing on the first open failure. -/
def Manager.new (loadResult : Except ConfigLoadError (List (String × Repository)))
    (openDb : String → Except Error DbHandle) : Except Error Manager :=
  let configs :=
    match loadResult with
    | .ok configs => configs
    | .error _ => []
  match configs.mapM (fun c =>
      (match openDb c.1 with
      | .ok db => .ok (c.1, Active.mk c.1 c.2 db)
      | .error e => .error e : Except Error (String × Active))) with
  | .ok repositories => .ok ⟨repositories⟩
  | .error e => .error e

/-- `Manager::remove_repository`: drop the in-memory entry, then delete the
repository's on-disk directory; a removal failure (`removeDirOk = false`)
surfaces as `RemoveDir` after the entry is already gone. -/
def Manager.remove_repository (m : Manager) (id : String) (removeDirOk : Bool) :
    Except Error Unit × Manager :=
  let m1 : Manager := ⟨m.repositories.filter fun e => decide (e.1 ≠ id)⟩
  if removeDirOk then
    (.ok (), m1)
  else
    (.error .RemoveDir, m1)

/-- The row the manager inserts for a decoded record (defined for records
carrying a hash; the identifier is that hash). -/
def rowOf (m : Meta) : PackageId × Meta := (m.hash.getD "", m)

/-- The rows contributed by one chunk of payloads. -/
def rowsOf (c : List PayloadKind) : List (PackageId × Meta) :=
  (metasOf c).map rowOf

/-- Concrete decoded records used to instantiate the theorems below. -/
def sampleMetaA : Meta := ⟨some "aaaaa", "pkg-a"⟩

def sampleMetaB : Meta := ⟨some "bbbbb", "pkg-b"⟩

def sampleMetaOld : Meta := ⟨some "zzzzz", "pkg-old"⟩

/-- A concrete decoded index: two hashed metadata payloads and one payload
of another kind. -/
def samplePayloads : List PayloadKind :=
  [.Meta sampleMetaA, .Other, .Meta sampleMetaB]

/-- A refresh environment in which every collaborator step succeeds. -/
def sampleRefreshEnv : RefreshEnv :=
  ⟨true, .ok (), .ok (), samplePayloads.map Except.ok, fun _ => true⟩

/-- A refresh environment whose index contains a record without a hash. -/
def sampleBadEnv : RefreshEnv :=
  ⟨true, .ok (), .ok (),
   [PayloadKind.Meta sampleMetaA, PayloadKind.Meta ⟨none, "pkg-broken"⟩].map
     Except.ok,
   fun _ => true⟩

/-- A refresh environment whose index holds more records than one batch. -/
def sampleBigEnv : RefreshEnv :=
  ⟨true, .ok (), .ok (), List.replicate 1001 (.ok .Other), fun _ => true⟩

/-- A concrete active repository and manager. -/
def sampleActive : Active :=
  ⟨"volatile", ⟨"Volatile packages", "https://example.org/volatile/stone.index", 0⟩, 0⟩

def sampleManager : Manager := ⟨[("volatile", sampleActive)]⟩

end Moss

namespace Boulder

theorem existsPath_remove (fs : FS) (p : FsPath) :
    (fs.remove p).existsPath p = false := by
  simp only [FS.remove, FS.existsPath]
  rw [List.any_eq_false]
  intro e he
  simp only [List.mem_filter, decide_eq_true_eq] at he
  simp only [decide_eq_true_eq]
  exact he.2

/-- Claim C7: `Hash::from_str` rejects every string shorter than 5 with a
too-short error and accepts every string of length at least 5 unchanged. -/
theorem hash_from_str_boundary (s : String) :
    (s.length < 5 → Hash.from_str s = .error (.TooShort s)) ∧
    (5 ≤ s.length → Hash.from_str s = .ok ⟨s⟩) := by
  constructor
  · intro h
    simp [Hash.from_str, h]
  · intro h
    rw [Hash.from_str, if_neg (by omega)]

theorem hash_from_str_boundary_witness :
    ((("abcd" : String).length < 5 ∧
        Hash.from_str "abcd" = .error (.TooShort "abcd")) ∧
      (5 ≤ ("abcde" : String).length ∧ Hash.from_str "abcde" = .ok ⟨"abcde"⟩)) :=
  ⟨⟨by decide, (hash_from_str_boundary "abcd").1 (by decide)⟩,
   ⟨by decide, (hash_from_str_boundary "abcde").2 (by decide)⟩⟩

/-- Claim C3: the cache path of a `Plain` upstream is
`fetched/<first 5>/<last 5>/<hash>` under the cache root, determined by the
hash alone: two upstreams with equal hashes but arbitrary other fields
(URIs included) resolve to the same path. -/
theorem plain_path_determined_by_hash (p q : Plain) (cache : Cache) :
    p.path cache = cache.upstreamsHost ++
      ["fetched", p.hash.val.take 5,
       p.hash.val.drop (p.hash.val.length - 5), p.hash.val] ∧
    (p.hash = q.hash → p.path cache = q.path cache) := by
  refine ⟨rfl, fun h => ?_⟩
  simp only [Plain.path, h]

theorem plain_path_determined_by_hash_witness :
    samplePlain.hash = samplePlain2.hash ∧
    samplePlain.path sampleCache = samplePlain2.path sampleCache :=
  ⟨by decide,
   (plain_path_determined_by_hash samplePlain samplePlain2 sampleCache).2 (by decide)⟩

/-- Claim C2: when the cache path of a `Plain` upstream exists, `fetch`
returns immediately with `was_cached = true`, issuing no network request and
computing no digest (and leaving the filesystem untouched); when the path
does not exist, any successful fetch reports `was_cached = false`. -/
theorem plain_fetch_cache_hit (p : Plain) (cache : Cache) (fs : FS)
    (digest : Bytes → String) (request : Except Unit (List Chunk)) :
    (fs.existsPath (p.path cache) = true →
      p.fetch cache fs digest request =
        ⟨.ok (.Plain p.name (p.path cache) true), fs, 0, 0⟩) ∧
    (fs.existsPath (p.path cache) = false →
      ∀ inst, (p.fetch cache fs digest request).result = .ok inst →
        inst.was_cached = false) := by
  constructor
  · intro h
    simp [Plain.fetch, h]
  · intro h inst hres
    simp only [Plain.fetch, h, Bool.false_eq_true, if_false] at hres
    cases request with
    | error e => simp at hres
    | ok chunks =>
      cases hsc : streamContent chunks with
      | error pb => simp [hsc] at hres
      | ok content =>
        simp only [hsc] at hres
        by_cases hd : digest content ≠ p.hash.val
        · simp [hd] at hres
        · simp only [hd, if_false] at hres
          cases hres
          rfl

theorem plain_fetch_cache_hit_witness :
    (FS.existsPath ⟨[(samplePlain.path sampleCache, [1, 2])]⟩
        (samplePlain.path sampleCache) = true ∧
      samplePlain.fetch sampleCache ⟨[(samplePlain.path sampleCache, [1, 2])]⟩
          (fun _ => "abcdef1234") (.ok []) =
        ⟨.ok (.Plain samplePlain.name (samplePlain.path sampleCache) true),
         ⟨[(samplePlain.path sampleCache, [1, 2])]⟩, 0, 0⟩) ∧
    (FS.existsPath ⟨[]⟩ (samplePlain.path sampleCache) = false ∧
      ∀ inst,
        (samplePlain.fetch sampleCache ⟨[]⟩ (fun _ => "abcdef1234")
              (.ok [])).result = .ok inst →
        inst.was_cached = false) :=
  ⟨⟨by decide,
    (plain_fetch_cache_hit samplePlain sampleCache
        ⟨[(samplePlain.path sampleCache, [1, 2])]⟩ (fun _ => "abcdef1234")
        (.ok [])).1 (by decide)⟩,
   ⟨by decide,
    (plain_fetch_cache_hit samplePlain sampleCache ⟨[]⟩ (fun _ => "abcdef1234")
        (.ok [])).2 (by decide)⟩⟩

/-- Claim C1: when the cache path does not exist and the finalized digest of
the downloaded content differs from the declared hash, `Plain::fetch` writes
and then removes the cache file, fails with `HashMismatch` carrying the
display name, the expected hash, and the actual digest, and the cache path
does not exist afterward. -/
theorem plain_fetch_hash_mismatch (p : Plain) (cache : Cache) (fs : FS)
    (digest : Bytes → String) (chunks : List Chunk) (content : Bytes)
    (hnot : fs.existsPath (p.path cache) = false)
    (hstream : streamContent chunks = .ok content)
    (hmis : digest content ≠ p.hash.val) :
    p.fetch cache fs digest (.ok chunks) =
      ⟨.error (.HashMismatch p.name p.hash.val (digest content)),
       (fs.write (p.path cache) content).remove (p.path cache), 1, 1⟩ ∧
    ((p.fetch cache fs digest (.ok chunks)).fs).existsPath (p.path cache) = false := by
  have hfetch : p.fetch cache fs digest (.ok chunks) =
      ⟨.error (.HashMismatch p.name p.hash.val (digest content)),
       (fs.write (p.path cache) content).remove (p.path cache), 1, 1⟩ := by
    simp only [Plain.fetch, hnot, Bool.false_eq_true, if_false, hstream]
    simp [hmis]
  refine ⟨hfetch, ?_⟩
  rw [hfetch]
  exact existsPath_remove _ _

theorem plain_fetch_hash_mismatch_witness :
    (FS.existsPath ⟨[]⟩ (samplePlain.path sampleCache) = false ∧
      streamContent [.ok [7, 7]] = .ok [7, 7] ∧
      (fun _ : Bytes => "0000000000") [7, 7] ≠ samplePlain.hash.val) ∧
    samplePlain.fetch sampleCache ⟨[]⟩ (fun _ => "0000000000") (.ok [.ok [7, 7]]) =
      ⟨.error (.HashMismatch samplePlain.name samplePlain.hash.val "0000000000"),
       (FS.write ⟨[]⟩ (samplePlain.path sampleCache) [7, 7]).remove
         (samplePlain.path sampleCache), 1, 1⟩ :=
  ⟨⟨by decide, rfl, by decide⟩,
   (plain_fetch_hash_mismatch samplePlain sampleCache ⟨[]⟩ (fun _ => "0000000000")
       [.ok [7, 7]] [7, 7] (by decide) rfl (by decide)).1⟩

theorem git_run_failure {g : Git} {env : GitEnv} (args : List String)
    (tr : Trace) (h : (env.proc tr.count).1 = false) :
    g.run env args tr =
      (.error (.GitFailed g.uri),
       ⟨tr.count + 1, tr.printed ++ [(env.proc tr.count).2],
        tr.calls ++ [args]⟩) := by
  simp [Git.run, h]

theorem git_run_success {g : Git} {env : GitEnv} {args : List String}
    {tr : Trace} (h : (env.proc tr.count).1 = true) :
    g.run env args tr = (.ok (), ⟨tr.count + 1, tr.printed, tr.calls ++ [args]⟩) := by
  simp [Git.run, h]

theorem git_run_error {g : Git} {env : GitEnv} {args : List String}
    {tr : Trace} {e : Error} {tr' : Trace}
    (h : g.run env args tr = (.error e, tr')) : e = .GitFailed g.uri := by
  unfold Git.run at h
  by_cases hp : (env.proc tr.count).1
  · simp [hp] at h
  · simp only [Bool.not_eq_true] at hp
    simp only [hp, Bool.false_eq_true, if_false, Prod.mk.injEq,
      Except.error.injEq] at h
    exact h.1.symm

theorem git_ref_exists_error {g : Git} {env : GitEnv} {tr : Trace}
    {e : Error} {tr' : Trace}
    (h : g.ref_exists env tr = (.error e, tr')) : e = .GitFailed g.uri := by
  unfold Git.ref_exists at h
  by_cases hfin : env.finalExists
  · simp only [hfin, Bool.not_true, Bool.false_eq_true, if_false] at h
    cases hr1 : g.run env ["fetch"] tr with
    | mk r1 tr1 =>
      rw [hr1] at h
      cases r1 with
      | error e1 =>
        simp only [Prod.mk.injEq, Except.error.injEq] at h
        exact h.1 ▸ git_run_error hr1
      | ok u =>
        simp only at h
        cases hr2 : g.run env ["cat-file", "-e", g.ref_id] tr1 with
        | mk r2 tr2 =>
          rw [hr2] at h
          cases r2 <;> simp at h
  · simp only [Bool.not_eq_true] at hfin
    simp [hfin] at h

theorem git_reset_to_ref_error {g : Git} {env : GitEnv} {tr : Trace}
    {e : Error} {tr' : Trace}
    (h : g.reset_to_ref env tr = (.error e, tr')) : e = .GitFailed g.uri := by
  unfold Git.reset_to_ref at h
  cases hr1 : g.run env ["reset", "--hard", g.ref_id] tr with
  | mk r1 tr1 =>
    rw [hr1] at h
    cases r1 with
    | error e1 =>
      simp only [Prod.mk.injEq, Except.error.injEq] at h
      exact h.1 ▸ git_run_error hr1
    | ok u => exact git_run_error h

set_option maxHeartbeats 3200000 in
theorem git_fetch_nonprobe_abort (g : Git) (cache : Cache) (env : GitEnv)
    (res : Except Error Installed) (tr' : Trace) (i : Nat)
    (hfe : g.fetch cache env ⟨0, [], []⟩ = (res, tr'))
    (hi : i < tr'.count) (hpf : (env.proc i).1 = false)
    (hnp : tr'.calls[i]? ≠ some ["cat-file", "-e", g.ref_id]) :
    res = .error (.GitFailed g.uri) ∧ i = tr'.count - 1 ∧
    tr'.printed.getLast? = some (env.proc i).2 := by
  cases hfin : env.finalExists <;> cases hstg : g.staging <;>
    cases hp0 : (env.proc 0).1 <;> cases hp1 : (env.proc 1).1 <;>
    cases hp2 : (env.proc 2).1 <;> cases hp3 : (env.proc 3).1 <;>
    cases hp4 : (env.proc 4).1 <;> cases hp5 : (env.proc 5).1
  all_goals (
    simp [Git.fetch, Git.ref_exists, Git.reset_to_ref, hfin, hstg,
      hp0, hp1, hp2, hp3, hp4, hp5,
      git_run_success, git_run_failure] at hfe
    obtain ⟨h1, h2⟩ := hfe
    subst h1
    subst h2
    rcases i with _ | _ | _ | _ | _ | _ | m <;> simp_all
    all_goals omega)

/-- Claim C5 (amended): a failing `Git::run` surfaces the captured stderr and
fails its caller with `GitFailed` carrying the source URI; every failing
`Git::fetch` fails with `GitFailed` carrying the source URI; and every
invoked subprocess other than the `cat-file -e` ref-existence probe whose
status is non-zero aborts the whole fetch — the fetch result is the
`GitFailed` error, that call is the last subprocess invoked, and its stderr
is the last line surfaced.  The probe is the one exception: its failure
makes `ref_exists` report `ok false`, selecting the fresh-clone path
instead. -/
theorem git_fetch_failure_policy (g : Git) (cache : Cache) (env : GitEnv) :
    (∀ args tr, (env.proc tr.count).1 = false →
      g.run env args tr =
        (.error (.GitFailed g.uri),
         ⟨tr.count + 1, tr.printed ++ [(env.proc tr.count).2],
          tr.calls ++ [args]⟩)) ∧
    (∀ tr e tr', g.fetch cache env tr = (.error e, tr') →
      e = .GitFailed g.uri) ∧
    (∀ res tr' i, g.fetch cache env ⟨0, [], []⟩ = (res, tr') →
      i < tr'.count → (env.proc i).1 = false →
      tr'.calls[i]? ≠ some ["cat-file", "-e", g.ref_id] →
      res = .error (.GitFailed g.uri) ∧ i = tr'.count - 1 ∧
      tr'.printed.getLast? = some (env.proc i).2) ∧
    (∀ tr, env.finalExists = true → (env.proc tr.count).1 = true →
      (env.proc (tr.count + 1)).1 = false →
      (g.ref_exists env tr).1 = .ok false) := by
  refine ⟨fun args tr h => git_run_failure args tr h, ?_,
    fun res tr' i hfe hi hpf hnp =>
      git_fetch_nonprobe_abort g cache env res tr' i hfe hi hpf hnp, ?_⟩
  · intro tr e tr' h
    unfold Git.fetch at h
    cases hre : g.ref_exists env tr with
    | mk r0 tr1 =>
      rw [hre] at h
      cases r0 with
      | error e0 =>
        simp only [Prod.mk.injEq, Except.error.injEq] at h
        exact h.1 ▸ git_ref_exists_error hre
      | ok b =>
        cases b with
        | true =>
          simp only at h
          cases hrst : g.reset_to_ref env tr1 with
          | mk r1 tr2 =>
            rw [hrst] at h
            cases r1 with
            | error e1 =>
              simp only [Prod.mk.injEq, Except.error.injEq] at h
              exact h.1 ▸ git_reset_to_ref_error hrst
            | ok u => simp at h
        | false =>
          simp only at h
          cases hcl : g.run env
              (["clone"] ++ (if g.staging then ["--mirror"] else []) ++
                ["--", g.uri.full,
                 String.intercalate "/"
                   (if g.staging then g.staging_path cache
                    else g.final_path cache)]) tr1 with
          | mk r1 tr2 =>
            rw [hcl] at h
            cases r1 with
            | error e1 =>
              simp only [Prod.mk.injEq, Except.error.injEq] at h
              exact h.1 ▸ git_run_error hcl
            | ok u =>
              simp only at h
              cases hst : (if g.staging then
                  g.run env
                    ["clone", "--",
                     String.intercalate "/"
                       (if g.staging then g.staging_path cache
                        else g.final_path cache),
                     String.intercalate "/" (g.final_path cache)] tr2
                else (.ok (), tr2)) with
              | mk r2 tr3 =>
                rw [hst] at h
                cases r2 with
                | error e2 =>
                  simp only [Prod.mk.injEq, Except.error.injEq] at h
                  refine h.1 ▸ ?_
                  by_cases hstg : g.staging
                  · simp only [hstg, if_true] at hst
                    exact git_run_error hst
                  · simp [hstg] at hst
                | ok u2 =>
                  simp only at h
                  cases hrst : g.reset_to_ref env tr3 with
                  | mk r3 tr4 =>
                    rw [hrst] at h
                    cases r3 with
                    | error e3 =>
                      simp only [Prod.mk.injEq, Except.error.injEq] at h
                      exact h.1 ▸ git_reset_to_ref_error hrst
                    | ok u3 => simp at h
  · intro tr hfin hp0 hp1
    unfold Git.ref_exists
    rw [hfin]
    simp only [Bool.not_true, Bool.false_eq_true, if_false]
    rw [git_run_success hp0]
    simp only
    rw [git_run_failure _ _ (by simpa using hp1)]

/-- Claim C5 (counterexample to the original statement): with an existing
final path, a succeeding `git fetch`, and a `cat-file -e` probe returning a
non-zero status, the git fetch runs the probe (call index 1), the probe
fails, and yet the whole fetch succeeds instead of aborting with
`GitFailed`. -/
theorem git_probe_failure_not_fatal_cex :
    (sampleGitEnv.proc 1).1 = false ∧
    (sampleGit.fetch sampleCache sampleGitEnv ⟨0, [], []⟩).2.calls[1]? =
      some ["cat-file", "-e", "deadbeef"] ∧
    (sampleGit.fetch sampleCache sampleGitEnv ⟨0, [], []⟩).1 =
      .ok (.Git sampleGit.name (sampleGit.final_path sampleCache) false) :=
  ⟨by decide, rfl, rfl⟩

theorem git_fetch_failure_policy_witness :
    ((sampleGitEnv.proc 1).1 = false ∧
      sampleGit.run sampleGitEnv ["fetch"] ⟨1, [], []⟩ =
        (.error (.GitFailed sampleGit.uri),
         ⟨2, [(sampleGitEnv.proc 1).2], [["fetch"]]⟩)) ∧
    ((sampleGitEnv2.proc 0).1 = false ∧
      sampleGit.fetch sampleCache sampleGitEnv2 ⟨0, [], []⟩ =
        (.error (.GitFailed sampleGit.uri),
         ⟨1, ["fatal: could not read"], [["fetch"]]⟩) ∧
      (0 : Nat) = 1 - 1 ∧
      (["fatal: could not read"] : List String).getLast? =
        some (sampleGitEnv2.proc 0).2) ∧
    (sampleGitEnv.finalExists = true ∧ (sampleGitEnv.proc 0).1 = true ∧
      (sampleGitEnv.proc 1).1 = false ∧
      (sampleGit.ref_exists sampleGitEnv ⟨0, [], []⟩).1 = .ok false) := by
  obtain ⟨h1, _, _, h4⟩ :=
    git_fetch_failure_policy sampleGit sampleCache sampleGitEnv
  obtain ⟨_, _, h3, _⟩ :=
    git_fetch_failure_policy sampleGit sampleCache sampleGitEnv2
  have habort := h3 (.error (.GitFailed sampleGit.uri))
    ⟨1, ["fatal: could not read"], [["fetch"]]⟩ 0 rfl
    (by decide) (by decide) (by decide)
  exact ⟨⟨by decide, by simpa using h1 ["fetch"] ⟨1, [], []⟩ (by decide)⟩,
    ⟨by decide, rfl, habort.2.1, habort.2.2⟩,
    ⟨rfl, by decide, by decide, h4 ⟨0, [], []⟩ rfl (by decide) (by decide)⟩⟩

end Boulder

namespace Moss

/-- Claim C9: `remove_repository` drops the in-memory entry before
attempting the directory removal: the identifier is absent from the
manager's set afterward in every case, the call fails with `RemoveDir`
exactly when the directory removal fails, and in that failure case the
in-memory entry is already gone. -/
theorem remove_repository_drops_entry_first (m : Manager) (id : String)
    (removeDirOk : Bool) :
    (∀ a : Active, (id, a) ∉ ((m.remove_repository id removeDirOk).2).repositories) ∧
    (removeDirOk = false →
      (m.remove_repository id removeDirOk).1 = .error .RemoveDir ∧
      ∀ a : Active, (id, a) ∉ ((m.remove_repository id removeDirOk).2).repositories) ∧
    (removeDirOk = true → (m.remove_repository id removeDirOk).1 = .ok ()) := by
  have hmem : ∀ a : Active,
      (id, a) ∉ ((m.remove_repository id removeDirOk).2).repositories := by
    intro a ha
    have h2 : (m.remove_repository id removeDirOk).2 =
        ⟨m.repositories.filter fun e => decide (e.1 ≠ id)⟩ := by
      unfold Manager.remove_repository
      cases removeDirOk <;> simp
    rw [h2] at ha
    simp at ha
  refine ⟨hmem, fun hfail => ⟨?_, hmem⟩, fun hok => ?_⟩
  · simp [Manager.remove_repository, hfail]
  · simp [Manager.remove_repository, hok]

theorem remove_repository_drops_entry_first_witness :
    ((false : Bool) = false →
      (sampleManager.remove_repository "volatile" false).1 = .error .RemoveDir ∧
      ∀ a : Active,
        (("volatile", a) ∉
          ((sampleManager.remove_repository "volatile" false).2).repositories)) ∧
    ((true : Bool) = true →
      (sampleManager.remove_repository "volatile" true).1 = .ok ()) :=
  ⟨fun h =>
    (remove_repository_drops_entry_first sampleManager "volatile" false).2.1 h,
   fun h =>
    (remove_repository_drops_entry_first sampleManager "volatile" true).2.2 h⟩

theorem chunksOf_nil (n : Nat) : chunksOf n ([] : List α) = [] := by
  rw [chunksOf]
  simp

theorem chunksOf_cons (n : Nat) (hn : 0 < n) (a : α) (t : List α) :
    chunksOf n (a :: t) = (a :: t).take n :: chunksOf n ((a :: t).drop n) := by
  rw [chunksOf]
  simp only [List.isEmpty_cons, Bool.false_eq_true, if_false]
  rw [if_neg (by omega)]

theorem chunksOf_zero_cons (a : α) (t : List α) :
    chunksOf 0 (a :: t) = [a :: t] := by
  rw [chunksOf]
  simp

theorem chunksOf_flatten (n : Nat) (hn : 0 < n) (l : List α) :
    (chunksOf n l).flatten = l := by
  have H : ∀ (N : Nat) (l : List α), l.length ≤ N → (chunksOf n l).flatten = l := by
    intro N
    induction N with
    | zero =>
      intro l hl
      have hnil : l = [] := List.eq_nil_of_length_eq_zero (Nat.le_zero.mp hl)
      subst hnil
      rw [chunksOf_nil]
      rfl
    | succ N ih =>
      intro l hl
      cases l with
      | nil => rw [chunksOf_nil]; rfl
      | cons a t =>
        rw [chunksOf_cons n hn]
        rw [List.flatten_cons]
        rw [ih ((a :: t).drop n)
          (by simp only [List.length_drop, List.length_cons] at hl ⊢; omega)]
        exact List.take_append_drop n (a :: t)
  exact H l.length l le_rfl

theorem chunksOf_length_le (n : Nat) (hn : 0 < n) (l : List α) :
    ∀ c ∈ chunksOf n l, c.length ≤ n := by
  have H : ∀ (N : Nat) (l : List α), l.length ≤ N →
      ∀ c ∈ chunksOf n l, c.length ≤ n := by
    intro N
    induction N with
    | zero =>
      intro l hl c hc
      have hnil : l = [] := List.eq_nil_of_length_eq_zero (Nat.le_zero.mp hl)
      subst hnil
      rw [chunksOf_nil] at hc
      cases hc
    | succ N ih =>
      intro l hl c hc
      cases l with
      | nil => rw [chunksOf_nil] at hc; cases hc
      | cons a t =>
        rw [chunksOf_cons n hn] at hc
        rcases List.mem_cons.mp hc with rfl | hc2
        · simp [Nat.min_le_left n (a :: t).length]
        · exact ih ((a :: t).drop n)
            (by simp only [List.length_drop, List.length_cons] at hl ⊢; omega) c hc2
  exact H l.length l le_rfl

theorem chunksOf_map (n : Nat) (f : α → β) (l : List α) :
    chunksOf n (l.map f) = (chunksOf n l).map (List.map f) := by
  have H : ∀ (N : Nat) (l : List α), l.length ≤ N →
      chunksOf n (l.map f) = (chunksOf n l).map (List.map f) := by
    intro N
    induction N with
    | zero =>
      intro l hl
      have hnil : l = [] := List.eq_nil_of_length_eq_zero (Nat.le_zero.mp hl)
      subst hnil
      rw [List.map_nil, chunksOf_nil, chunksOf_nil]
      rfl
    | succ N ih =>
      intro l hl
      cases l with
      | nil => rw [List.map_nil, chunksOf_nil, chunksOf_nil]; rfl
      | cons a t =>
        by_cases hn : n = 0
        · subst hn
          rw [List.map_cons, chunksOf_zero_cons, chunksOf_zero_cons]
          simp
        · rw [List.map_cons, chunksOf_cons n (by omega),
            chunksOf_cons n (by omega), List.map_cons]
          rw [← List.map_cons f a t]
          rw [← List.map_take, ← List.map_drop]
          rw [ih ((a :: t).drop n)
            (by simp only [List.length_drop, List.length_cons] at hl ⊢; omega)]
  exact H l.length l le_rfl

theorem metasOf_append (a b : List PayloadKind) :
    metasOf (a ++ b) = metasOf a ++ metasOf b := by
  simp [metasOf, List.filterMap_append]

theorem metasOf_flatten (L : List (List PayloadKind)) :
    metasOf L.flatten = (L.map metasOf).flatten := by
  induction L with
  | nil => rfl
  | cons c rest ih =>
    rw [List.flatten_cons, metasOf_append, List.map_cons, List.flatten_cons, ih]

theorem rowsOf_flatten (L : List (List PayloadKind)) :
    (L.map rowsOf).flatten = rowsOf L.flatten := by
  induction L with
  | nil => rfl
  | cons c rest ih =>
    rw [List.map_cons, List.flatten_cons, ih]
    simp [rowsOf, metasOf_append]

theorem except_bind_ok_eq (a : α) (f : α → Except ε β) :
    (Except.ok a >>= f : Except ε β) = f a := rfl

theorem except_bind_error_eq (e : ε) (f : α → Except ε β) :
    ((Except.error e : Except ε α) >>= f : Except ε β) = .error e := rfl

theorem exceptMapM_length {f : α → Except ε β} :
    ∀ {l : List α} {l2 : List β}, l.mapM f = .ok l2 → l2.length = l.length := by
  intro l
  induction l with
  | nil =>
    intro l2 h
    rw [show ([] : List α).mapM f = (.ok [] : Except ε (List β)) from rfl] at h
    injection h with he
    rw [← he]
    rfl
  | cons a t ih =>
    intro l2 h
    rw [List.mapM_cons] at h
    cases hf : f a with
    | error e =>
      rw [hf, except_bind_error_eq] at h
      exact Except.noConfusion h
    | ok b =>
      rw [hf, except_bind_ok_eq] at h
      cases ht : t.mapM f with
      | error e2 =>
        rw [ht, except_bind_error_eq] at h
        exact Except.noConfusion h
      | ok lt =>
        rw [ht, except_bind_ok_eq] at h
        have he : b :: lt = l2 := by injection h
        rw [← he, List.length_cons, ih ht, List.length_cons]

theorem collectChunk_map_ok (c : List PayloadKind) :
    collectChunk (c.map Except.ok) = .ok c := by
  induction c with
  | nil => rfl
  | cons a t ih =>
    unfold collectChunk at ih ⊢
    rw [List.map_cons, List.mapM_cons]
    simp only
    rw [except_bind_ok_eq, ih, except_bind_ok_eq]
    rfl

theorem mapM_packageRow_ok (l : List Meta) (hall : ∀ m ∈ l, m.hash ≠ none) :
    l.mapM packageRow = .ok (l.map rowOf) := by
  induction l with
  | nil => rfl
  | cons a t ih =>
    rw [List.mapM_cons]
    cases ha : a.hash with
    | none => exact absurd ha (hall a (List.mem_cons_self a t))
    | some hsh =>
      have hpr : packageRow a = .ok (hsh, a) := by simp [packageRow, ha]
      rw [hpr, except_bind_ok_eq,
        ih (fun m hm => hall m (List.mem_cons_of_mem a hm)), except_bind_ok_eq,
        List.map_cons]
      simp [rowOf, ha]
      rfl

theorem mapM_packageRow_error (l : List Meta) (hsome : ∃ m ∈ l, m.hash = none) :
    l.mapM packageRow = .error (.MissingMetaField .PackageHash) := by
  induction l with
  | nil => simp at hsome
  | cons a t ih =>
    rw [List.mapM_cons]
    cases ha : a.hash with
    | none =>
      have hpr : packageRow a = .error (.MissingMetaField .PackageHash) := by
        simp [packageRow, ha]
      rw [hpr, except_bind_error_eq]
    | some hsh =>
      have hpr : packageRow a = .ok (hsh, a) := by simp [packageRow, ha]
      rw [hpr, except_bind_ok_eq]
      obtain ⟨m, hm, hmn⟩ := hsome
      rcases List.mem_cons.mp hm with rfl | hmt
      · rw [ha] at hmn
        exact Option.noConfusion hmn
      · rw [ih ⟨m, hmt, hmn⟩, except_bind_error_eq]

theorem chunkBatch_ok (c : List PayloadKind)
    (hall : ∀ m ∈ metasOf c, m.hash ≠ none) :
    chunkBatch c = .ok (rowsOf c) :=
  mapM_packageRow_ok (metasOf c) hall

theorem chunkBatch_missing (c : List PayloadKind)
    (hsome : ∃ m ∈ metasOf c, m.hash = none) :
    chunkBatch c = .error (.MissingMetaField .PackageHash) :=
  mapM_packageRow_error (metasOf c) hsome

theorem runBatches_all_ok (batchOk : Nat → Bool) (hb : ∀ j, batchOk j = true) :
    ∀ (chunkList : List (List PayloadKind)) (i : Nat) (db : MetaDb),
      (∀ c ∈ chunkList, ∀ m ∈ metasOf c, m.hash ≠ none) →
      runBatches batchOk (chunkList.map (List.map Except.ok)) i db =
        (.ok (), db ++ (chunkList.map rowsOf).flatten, chunkList.map rowsOf) := by
  intro chunkList
  induction chunkList with
  | nil =>
    intro i db h
    simp [runBatches]
  | cons c rest ih =>
    intro i db hall
    rw [List.map_cons, runBatches, collectChunk_map_ok]
    simp only
    rw [chunkBatch_ok c (hall c (List.mem_cons_self c rest))]
    simp only [hb i, if_true]
    rw [ih (i + 1) (db ++ rowsOf c)
      (fun c2 hc2 => hall c2 (List.mem_cons_of_mem c hc2))]
    simp [List.append_assoc]

theorem runBatches_missing_hash (batchOk : Nat → Bool) (hb : ∀ j, batchOk j = true) :
    ∀ (chunkList : List (List PayloadKind)) (i : Nat) (db : MetaDb),
      (∃ c ∈ chunkList, ∃ m ∈ metasOf c, m.hash = none) →
      ∃ pre bad post, chunkList = pre ++ bad :: post ∧
        (∀ c ∈ pre, ∀ m ∈ metasOf c, m.hash ≠ none) ∧
        (∃ m ∈ metasOf bad, m.hash = none) ∧
        runBatches batchOk (chunkList.map (List.map Except.ok)) i db =
          (.error (.MissingMetaField .PackageHash),
           db ++ (pre.map rowsOf).flatten, pre.map rowsOf) := by
  intro chunkList
  induction chunkList with
  | nil =>
    intro i db h
    simp at h
  | cons c rest ih =>
    intro i db hex
    by_cases hc : ∃ m ∈ metasOf c, m.hash = none
    · refine ⟨[], c, rest, rfl, by simp, hc, ?_⟩
      rw [List.map_cons, runBatches, collectChunk_map_ok]
      simp only
      rw [chunkBatch_missing c hc]
      simp
    · have hall_c : ∀ m ∈ metasOf c, m.hash ≠ none := by
        intro m hm hmn
        exact hc ⟨m, hm, hmn⟩
      have hrest : ∃ c2 ∈ rest, ∃ m ∈ metasOf c2, m.hash = none := by
        obtain ⟨c2, hc2, hm⟩ := hex
        rcases List.mem_cons.mp hc2 with rfl | hc2t
        · exact absurd hm hc
        · exact ⟨c2, hc2t, hm⟩
      obtain ⟨pre, bad, post, hsplit, hpre, hbad, hrun⟩ :=
        ih (i + 1) (db ++ rowsOf c) hrest
      refine ⟨c :: pre, bad, post, by rw [hsplit, List.cons_append], ?_, hbad, ?_⟩
      · intro c2 hc2
        rcases List.mem_cons.mp hc2 with rfl | hc2t
        · exact hall_c
        · exact hpre c2 hc2t
      · rw [List.map_cons, runBatches, collectChunk_map_ok]
        simp only
        rw [chunkBatch_ok c hall_c]
        simp only [hb i, if_true]
        rw [hrun]
        simp [List.append_assoc]

theorem runBatches_batch_lengths (batchOk : Nat → Bool) (n : Nat) :
    ∀ (chunks : List (List (Except Unit PayloadKind))) (i : Nat) (db : MetaDb),
      (∀ c ∈ chunks, c.length ≤ n) →
      ∀ b ∈ (runBatches batchOk chunks i db).2.2, b.length ≤ n := by
  intro chunks
  induction chunks with
  | nil =>
    intro i db h b hb
    simp [runBatches] at hb
  | cons c rest ih =>
    intro i db hlen b hb
    rw [runBatches] at hb
    cases hcc : collectChunk c with
    | error e => rw [hcc] at hb; simp at hb
    | ok payloads =>
      rw [hcc] at hb
      simp only at hb
      cases hcb : chunkBatch payloads with
      | error e => rw [hcb] at hb; simp at hb
      | ok batch =>
        rw [hcb] at hb
        simp only at hb
        have hblen : batch.length ≤ n := by
          have h1 : batch.length = (metasOf payloads).length :=
            exceptMapM_length hcb
          have h2 : (metasOf payloads).length ≤ payloads.length :=
            List.length_filterMap_le _ _
          have h3 : payloads.length = c.length := exceptMapM_length hcc
          have h4 : c.length ≤ n := hlen c (List.mem_cons_self c rest)
          omega
        by_cases hok : batchOk i
        · rw [if_pos hok] at hb
          simp only at hb
          rcases List.mem_cons.mp hb with rfl | hb2
          · exact hblen
          · exact ih (i + 1) (db ++ batch)
              (fun c2 hc2 => hlen c2 (List.mem_cons_of_mem c hc2)) b hb2
        · rw [if_neg hok] at hb
          simp only [List.mem_singleton] at hb
          rw [hb]
          exact hblen

theorem refresh_index_run (db : MetaDb) (env : RefreshEnv)
    (hcd : env.createDirOk = true) (hfi : env.fetchIndex = .ok ())
    (hso : env.streamOpen = .ok ()) :
    refresh_index db env =
      runBatches env.batchOk (chunksOf DB_BATCH_SIZE env.payloads) 0 [] := by
  unfold refresh_index
  rw [hcd, hfi, hso]
  simp

/-- Claim C4: a refresh wipes the store before inserting: under a
successful refresh (download, stream open, reads, and batch writes all
succeed; every decoded record carries a hash) the resulting store is
exactly the rows decoded from the new index, whatever the prior contents;
in particular an identifier absent from the new index is absent from the
store afterward. -/
theorem refresh_index_replaces (db : MetaDb) (env : RefreshEnv)
    (ps : List PayloadKind)
    (hcd : env.createDirOk = true) (hfi : env.fetchIndex = .ok ())
    (hso : env.streamOpen = .ok ()) (hps : env.payloads = ps.map Except.ok)
    (hb : ∀ j, env.batchOk j = true)
    (hall : ∀ m ∈ metasOf ps, m.hash ≠ none) :
    refresh_index db env =
      (.ok (), rowsOf ps, (chunksOf DB_BATCH_SIZE ps).map rowsOf) ∧
    ∀ pid, pid ∉ (metasOf ps).filterMap Meta.hash →
      ∀ meta : Meta, (pid, meta) ∉ (refresh_index db env).2.1 := by
  have hmain : refresh_index db env =
      (.ok (), rowsOf ps, (chunksOf DB_BATCH_SIZE ps).map rowsOf) := by
    rw [refresh_index_run db env hcd hfi hso, hps,
      chunksOf_map DB_BATCH_SIZE Except.ok ps]
    have hallc : ∀ c ∈ chunksOf DB_BATCH_SIZE ps, ∀ m ∈ metasOf c, m.hash ≠ none := by
      intro c hcmem m hm
      apply hall
      have hmem2 : m ∈ metasOf (chunksOf DB_BATCH_SIZE ps).flatten := by
        rw [metasOf_flatten]
        exact List.mem_flatten.mpr ⟨metasOf c, List.mem_map_of_mem _ hcmem, hm⟩
      rwa [chunksOf_flatten DB_BATCH_SIZE (by decide) ps] at hmem2
    rw [runBatches_all_ok env.batchOk hb (chunksOf DB_BATCH_SIZE ps) 0 [] hallc,
      List.nil_append, rowsOf_flatten,
      chunksOf_flatten DB_BATCH_SIZE (by decide) ps]
  refine ⟨hmain, ?_⟩
  intro pid hpid meta hmem
  rw [hmain] at hmem
  simp only [rowsOf, List.mem_map] at hmem
  obtain ⟨m, hm, hrow⟩ := hmem
  cases hh : m.hash with
  | none => exact hall m hm hh
  | some h =>
    apply hpid
    simp only [rowOf, hh, Option.getD_some] at hrow
    injection hrow with h1 h2
    rw [← h1]
    exact List.mem_filterMap.mpr ⟨m, hm, hh⟩

theorem refresh_index_replaces_witness :
    ((∀ m ∈ metasOf samplePayloads, m.hash ≠ none) ∧
      refresh_index [("zzzzz", sampleMetaOld)] sampleRefreshEnv =
        (.ok (), rowsOf samplePayloads,
         (chunksOf DB_BATCH_SIZE samplePayloads).map rowsOf)) ∧
    ("zzzzz" ∉ (metasOf samplePayloads).filterMap Meta.hash ∧
      ∀ meta : Meta, ("zzzzz", meta) ∉
        (refresh_index [("zzzzz", sampleMetaOld)] sampleRefreshEnv).2.1) := by
  have h := refresh_index_replaces [("zzzzz", sampleMetaOld)] sampleRefreshEnv
    samplePayloads rfl rfl rfl rfl (fun j => rfl) (by decide)
  exact ⟨⟨by decide, h.1⟩, ⟨by decide, fun meta => h.2 "zzzzz" (by decide) meta⟩⟩

/-- Claim C6: a metadata payload whose decoded record lacks the package-hash
field fails the whole refresh with `MissingMetaField PackageHash`, and no
batch at or after the one containing it is inserted: the store afterward
holds only the rows of the chunks strictly before the first offending
chunk. -/
theorem refresh_index_missing_hash (db : MetaDb) (env : RefreshEnv)
    (ps : List PayloadKind)
    (hcd : env.createDirOk = true) (hfi : env.fetchIndex = .ok ())
    (hso : env.streamOpen = .ok ()) (hps : env.payloads = ps.map Except.ok)
    (hb : ∀ j, env.batchOk j = true)
    (hmiss : ∃ m ∈ metasOf ps, m.hash = none) :
    (refresh_index db env).1 = .error (.MissingMetaField .PackageHash) ∧
    ∃ pre bad post,
      chunksOf DB_BATCH_SIZE ps = pre ++ bad :: post ∧
      (∀ c ∈ pre, ∀ m ∈ metasOf c, m.hash ≠ none) ∧
      (∃ m ∈ metasOf bad, m.hash = none) ∧
      (refresh_index db env).2.1 = (pre.map rowsOf).flatten := by
  have hex : ∃ c ∈ chunksOf DB_BATCH_SIZE ps, ∃ m ∈ metasOf c, m.hash = none := by
    obtain ⟨m, hm, hmn⟩ := hmiss
    rw [← chunksOf_flatten DB_BATCH_SIZE (by decide) ps, metasOf_flatten] at hm
    obtain ⟨lm, hlm, hmlm⟩ := List.mem_flatten.mp hm
    obtain ⟨c, hc, rfl⟩ := List.mem_map.mp hlm
    exact ⟨c, hc, m, hmlm, hmn⟩
  obtain ⟨pre, bad, post, hsplit, hpre, hbad, hrun⟩ :=
    runBatches_missing_hash env.batchOk hb (chunksOf DB_BATCH_SIZE ps) 0 [] hex
  have hri : refresh_index db env =
      (.error (.MissingMetaField .PackageHash),
       (pre.map rowsOf).flatten, pre.map rowsOf) := by
    rw [refresh_index_run db env hcd hfi hso, hps,
      chunksOf_map DB_BATCH_SIZE Except.ok ps, hrun]
    simp
  exact ⟨by rw [hri], pre, bad, post, hsplit, hpre, hbad, by rw [hri]⟩

theorem refresh_index_missing_hash_witness :
    ((∃ m ∈ metasOf [PayloadKind.Meta sampleMetaA,
        PayloadKind.Meta ⟨none, "pkg-broken"⟩], m.hash = none) ∧
      (refresh_index [] sampleBadEnv).1 =
        .error (.MissingMetaField .PackageHash)) ∧
    ∃ pre bad post,
      chunksOf DB_BATCH_SIZE
          [PayloadKind.Meta sampleMetaA, PayloadKind.Meta ⟨none, "pkg-broken"⟩] =
        pre ++ bad :: post ∧
      (∀ c ∈ pre, ∀ m ∈ metasOf c, m.hash ≠ none) ∧
      (∃ m ∈ metasOf bad, m.hash = none) ∧
      (refresh_index [] sampleBadEnv).2.1 = (pre.map rowsOf).flatten := by
  have h := refresh_index_missing_hash [] sampleBadEnv
    [PayloadKind.Meta sampleMetaA, PayloadKind.Meta ⟨none, "pkg-broken"⟩]
    rfl rfl rfl rfl (fun j => rfl) (by decide)
  exact ⟨⟨by decide, h.1⟩, h.2⟩

/-- Claim C8: records are inserted chunk by chunk, one `batch_add` call per
chunk of at most `DB_BATCH_SIZE` stream items; every batch passed to the
store (in any refresh whose index holds more records than one batch) has
size at most `DB_BATCH_SIZE`. -/
theorem refresh_index_batch_bound (db : MetaDb) (env : RefreshEnv)
    (_hlarge : DB_BATCH_SIZE < env.payloads.length) :
    ∀ b ∈ (refresh_index db env).2.2, b.length ≤ DB_BATCH_SIZE := by
  intro b hb
  unfold refresh_index at hb
  cases hcd : env.createDirOk with
  | false =>
    rw [hcd] at hb
    simp at hb
  | true =>
    rw [hcd] at hb
    simp only [Bool.not_true, Bool.false_eq_true, if_false] at hb
    cases hfi : env.fetchIndex with
    | error e =>
      rw [hfi] at hb
      simp at hb
    | ok u =>
      rw [hfi] at hb
      simp only at hb
      cases hso : env.streamOpen with
      | error e2 =>
        rw [hso] at hb
        simp at hb
      | ok u2 =>
        rw [hso] at hb
        simp only at hb
        exact runBatches_batch_lengths env.batchOk DB_BATCH_SIZE
          (chunksOf DB_BATCH_SIZE env.payloads) 0 []
          (chunksOf_length_le DB_BATCH_SIZE (by decide) env.payloads) b hb

theorem sampleBigEnv_large : DB_BATCH_SIZE < sampleBigEnv.payloads.length := by
  rw [show sampleBigEnv.payloads = List.replicate 1001 (.ok .Other) from rfl,
    List.length_replicate]
  decide

theorem refresh_index_batch_bound_witness :
    DB_BATCH_SIZE < sampleBigEnv.payloads.length ∧
    ∀ b ∈ (refresh_index [] sampleBigEnv).2.2, b.length ≤ DB_BATCH_SIZE :=
  ⟨sampleBigEnv_large, refresh_index_batch_bound [] sampleBigEnv sampleBigEnv_large⟩

theorem manager_open_loop_error
    (openDb : String → Except Error DbHandle) :
    ∀ (configs : List (String × Repository)) (err : Error),
      configs.mapM (fun c =>
          (match openDb c.1 with
          | .ok db => .ok (c.1, Active.mk c.1 c.2 db)
          | .error e => .error e : Except Error (String × Active))) = .error err →
      ∃ c ∈ configs, openDb c.1 = .error err := by
  intro configs
  induction configs with
  | nil => intro err h; exact Except.noConfusion h
  | cons a t ih =>
    intro err h
    rw [List.mapM_cons] at h
    cases ho : openDb a.1 with
    | error e =>
      simp only [ho] at h
      rw [except_bind_error_eq] at h
      injection h with he
      exact ⟨a, List.mem_cons_self a t, he ▸ ho⟩
    | ok db =>
      simp only [ho] at h
      rw [except_bind_ok_eq] at h
      cases ht : t.mapM (fun c =>
          (match openDb c.1 with
          | .ok db => .ok (c.1, Active.mk c.1 c.2 db)
          | .error e => .error e : Except Error (String × Active))) with
      | error e2 =>
        rw [ht, except_bind_error_eq] at h
        injection h with he
        obtain ⟨c, hc, hco⟩ := ih err (he ▸ ht)
        exact ⟨c, List.mem_cons_of_mem a hc, hco⟩
      | ok l =>
        rw [ht, except_bind_ok_eq] at h
        exact Except.noConfusion h

/-- Claim C10: `Manager::new` never fails because of the config-load step —
any load failure (absence, unreadable, malformed) yields the manager with
the empty repository set — and whenever construction does fail, the load
succeeded and some configured repository's metadata store failed to open
with that error. -/
theorem manager_new_tolerates_load_failure
    (openDb : String → Except Error DbHandle) :
    (∀ e : ConfigLoadError, Manager.new (.error e) openDb = .ok ⟨[]⟩) ∧
    (∀ (loadResult : Except ConfigLoadError (List (String × Repository)))
       (err : Error), Manager.new loadResult openDb = .error err →
      ∃ configs, loadResult = .ok configs ∧
        ∃ c ∈ configs, openDb c.1 = .error err) := by
  constructor
  · intro e
    rfl
  · intro loadResult err h
    cases loadResult with
    | error e => cases h
    | ok configs =>
      refine ⟨configs, rfl, ?_⟩
      unfold Manager.new at h
      simp only at h
      cases hm : configs.mapM (fun c =>
          (match openDb c.1 with
          | .ok db => .ok (c.1, Active.mk c.1 c.2 db)
          | .error e => .error e : Except Error (String × Active))) with
      | error e2 =>
        rw [hm] at h
        simp only at h
        injection h with he
        exact he ▸ manager_open_loop_error openDb configs e2 hm
      | ok l =>
        rw [hm] at h
        simp only at h
        exact Except.noConfusion h

theorem manager_new_tolerates_load_failure_witness :
    Manager.new (.error .Malformed) (fun _ => .ok 0) = .ok ⟨[]⟩ ∧
    (Manager.new (.ok [("volatile", sampleActive.repository)])
        (fun _ => .error .Database) = .error .Database →
      ∃ configs,
        (.ok [("volatile", sampleActive.repository)] :
            Except ConfigLoadError (List (String × Repository))) = .ok configs ∧
        ∃ c ∈ configs, (fun _ : String => (.error .Database : Except Error DbHandle)) c.1 =
          .error .Database) :=
  ⟨(manager_new_tolerates_load_failure (fun _ => .ok 0)).1 .Malformed,
   fun h => (manager_new_tolerates_load_failure (fun _ => .error .Database)).2
     (.ok [("volatile", sampleActive.repository)]) .Database h⟩

end Moss
